import Mathlib

/-!
Verification of the translation caching-and-dispatch core of
obsidian-auto-translator-ui (src/auto-translate-ui/main.js), as a shallow
embedding in Lean.  JavaScript Maps and plain objects are modelled as
association lists (insertion order front-to-back, as JS Map iteration order),
JS numbers of the relevant code paths as Int/Nat, and the fallible durable
write of the disk cache as an explicit Boolean outcome parameter.  The sha1
hash from the crypto library (external to the repository) is abstracted as a
function parameter; the pre-hash encoding built by the code is modelled
exactly.
-/

namespace AutoTranslateUI

/-! ## Association-list primitives (JS Map / plain object) -/

/-- Lookup in an association list, first binding wins (JS Map get / object read). -/
def lookupA : List (String × String) → String → Option String
  | [], _ => none
  | (a, b) :: rest, k => if a = k then some b else lookupA rest k

/-- Remove every binding of a key (JS Map delete; sets built below keep keys unique). -/
def eraseA : List (String × String) → String → List (String × String)
  | [], _ => []
  | (a, b) :: rest, k => if a = k then eraseA rest k else (a, b) :: eraseA rest k

/-- Overwrite-or-append for a plain JS object assignment this.map[k] = v. -/
def upsertA : List (String × String) → String → String → List (String × String)
  | [], k, v => [(k, v)]
  | (a, b) :: rest, k, v => if a = k then (k, v) :: rest else (a, b) :: upsertA rest k v

/-- JS truthiness of a string-or-undefined value: undefined and the empty string
are falsy; a truthy value is returned unchanged. -/
def truthy : Option String → Option String
  | none => none
  | some s => if s = "" then none else some s

/-- The value of the JS expression (a || b) as consumed by a truthiness test:
a truthy a wins, otherwise the test sees b filtered through truthiness. -/
def jsOr (a b : Option String) : Option String :=
  match truthy a with
  | some v => some v
  | none => truthy b

/-! ## Memory cache: class LRU (main.js lines 5-10)

JS Map iteration order is insertion order, so the front of the entries list is
the oldest (least recently used) key and the back is the newest.  The limit is
an Int because the configured capacity can be any JS number (see the settings
tab, line 604, where negative inputs pass through unchanged). -/

structure LRU where
  limit : Int
  entries : List (String × String)
deriving Repr, DecidableEq

/-- LRU.get: on presence delete and re-insert the entry at the back (refresh
recency) and return its value; the map is untouched on absence. -/
def LRU.get (c : LRU) (k : String) : Option String × LRU :=
  match lookupA c.entries k with
  | none => (none, c)
  | some v => (some v, ⟨c.limit, eraseA c.entries k ++ [(k, v)]⟩)

/-- LRU.set: delete any existing binding, append at the back, and if the size
now exceeds the limit delete the first (oldest) key — exactly one eviction. -/
def LRU.set (c : LRU) (k v : String) : LRU :=
  let e := eraseA c.entries k ++ [(k, v)]
  if c.limit < (e.length : Int) then ⟨c.limit, e.drop 1⟩ else ⟨c.limit, e⟩

/-- Fold a list of set calls over an LRU (used to state eviction properties). -/
def LRU.insertAll (c : LRU) (ps : List (String × String)) : LRU :=
  ps.foldl (fun a p => a.set p.1 p.2) c

/-! ## Persistent cache: class DiskCache (main.js lines 145-160) -/

structure DiskCache where
  map : List (String × String)
  dirty : Bool
deriving Repr, DecidableEq

/-- DiskCache.get: in-memory lookup only. -/
def DiskCache.get (d : DiskCache) (k : String) : Option String :=
  lookupA d.map k

/-- DiskCache.set: in-memory mutation plus marking the store dirty (the
debounced scheduleSave timer is outside the embedded state). -/
def DiskCache.set (d : DiskCache) (k v : String) : DiskCache :=
  ⟨upsertA d.map k v, true⟩

/-- DiskCache.flush, line 159: if not dirty return immediately; otherwise the
code sets this.dirty = false and then attempts the durable write inside a
try/catch whose catch only logs.  The success of the write is supplied as
writeOk; the second component is some writeOk when a write was attempted and
none when flush was a no-op. -/
def DiskCache.flush (d : DiskCache) (writeOk : Bool) : DiskCache × Option Bool :=
  if !d.dirty then (d, none)
  else (⟨d.map, false⟩, some writeOk)

/-! ## Settings coercion for the memory-cache capacity (main.js line 604) -/

/-- Result of the JS Number(...) conversion of the capacity text field:
nan for non-numeric input, otherwise the numeric value. -/
inductive NumInput
  | nan
  | num (n : Int)
deriving Repr, DecidableEq

/-- The expression Number(v) || 5000 of the settings tab (line 604; onload
line 170 uses the same pattern cacheLimit || 5000): the falsy numbers NaN and
0 fall back to 5000, every other number — negative ones included — is kept. -/
def coerceCacheLimit : NumInput → Int
  | .nan => 5000
  | .num n => if n = 0 then 5000 else n

/-! ## Fingerprinting (main.js lines 45 and 208) -/

/-- The pre-hash encoding of line 208: the four fields joined with the pipe
separator, [providerName, src, tgt, t].join('|'). -/
def joinKey (p s t x : String) : String :=
  String.intercalate "|" [p, s, t, x]

/-- The fingerprint sha1(join) of line 208, with the sha1 function of the
external crypto library abstracted as the hash parameter. -/
def fingerprintOf (hash : String → String) (p s t x : String) : String :=
  hash (joinKey p s t x)

/-! ## Translation orchestrator: plugin.translateMany (main.js lines 203-239)

The provider capability (this.provider.translateMany) is passed as a function
from the list of texts to an outcome; .err models a rejected provider call
(caught by the orchestrator at line 230).  The result value records, besides
the output list and the new plugin state, a trace of the side-effecting calls
the code makes: providerCalls (direct invocations of the Provider at line
229), writeBacks (the (key, value) pairs written to both cache tiers at line
237), and promotions (the hit-path this.lru.set(k, cached) calls of line
216). -/

/-- Outcome of one Provider capability call: a resolved ordered list of
translated strings, or a rejection. -/
inductive ProviderOutcome
  | ok (tr : List String)
  | err
deriving Repr, DecidableEq

structure Plugin where
  providerName : String
  sourceLang : String
  targetLang : String
  offlineOnly : Bool
  lru : LRU
  disk : DiskCache
deriving Repr, DecidableEq

/-- Line 204: this.settings.sourceLang || 'auto'. -/
def Plugin.srcLang (p : Plugin) : String :=
  if p.sourceLang = "" then "auto" else p.sourceLang

/-- Line 205: this.settings.targetLang || 'ko'. -/
def Plugin.tgtLang (p : Plugin) : String :=
  if p.targetLang = "" then "ko" else p.targetLang

/-- The cache key a text receives inside translateMany (line 208). -/
def Plugin.keyOf (p : Plugin) (hash : String → String) (t : String) : String :=
  fingerprintOf hash p.providerName p.srcLang p.tgtLang t

/-- One scanned text: its source text, its key, and its hit slot (some cached
value on a hit, none on a miss). -/
abbrev ScanItem := String × String × Option String

/-- The hit/miss scan of lines 212-218: per key evaluate
this.lru.get(k) || this.diskCache.get(k) under JS truthiness (note that
lru.get refreshes recency even when the stored value is falsy), and on a hit
promote the value with this.lru.set(k, cached).  Returns the per-key slots,
the LRU state after the scan, and the promotion trace. -/
def scanHits (disk : DiskCache) : LRU → List String → List (Option String) × LRU × List (String × String)
  | lru, [] => ([], lru, [])
  | lru, k :: ks =>
    let r1 := lru.get k
    match jsOr r1.1 (disk.get k) with
    | some v =>
      let rest := scanHits disk (r1.2.set k v) ks
      (some v :: rest.1, rest.2.1, (k, v) :: rest.2.2)
    | none =>
      let rest := scanHits disk r1.2 ks
      (none :: rest.1, rest.2.1, rest.2.2)

/-- The miss texts in their relative order (lines 217 and 222:
missIdx.push(i) followed by missIdx.map(i => texts[i])). -/
def missList : List ScanItem → List String
  | [] => []
  | (t, _, none) :: rest => t :: missList rest
  | (_, _, some _) :: rest => missList rest

/-- The (text, key) pairs at miss positions, in relative order. -/
def missKV : List ScanItem → List (String × String)
  | [] => []
  | (t, k, none) :: rest => (t, k) :: missKV rest
  | (_, _, some _) :: rest => missKV rest

/-- Output assembly when the misses are filled with their original texts (the
all-hit return of line 220, the offlineOnly branch of lines 223-226, and the
catch branch of lines 230-235 all produce this array). -/
def fillOriginals : List ScanItem → List String
  | [] => []
  | (_, _, some v) :: rest => v :: fillOriginals rest
  | (t, _, none) :: rest => t :: fillOriginals rest

/-- State-carrying result of the write-back pass of line 237. -/
structure FillResult where
  out : List String
  lru : LRU
  disk : DiskCache
  writes : List (String × String)
deriving Repr, DecidableEq

/-- The write-back pass of line 237: walking the scanned items with the miss
counter j, each miss slot receives dst = translated[j] ?? missTexts[j] (the
nullish fallback fires only when index j is beyond the returned list) and dst
is written into both cache tiers under the miss's key; hit slots keep their
cached value.  The writes field records the (key, dst) pairs in order. -/
def fillMisses (tr : List String) : Nat → LRU → DiskCache → List ScanItem → FillResult
  | _, lru, disk, [] => ⟨[], lru, disk, []⟩
  | j, lru, disk, (_, _, some v) :: rest =>
    let r := fillMisses tr j lru disk rest
    ⟨v :: r.out, r.lru, r.disk, r.writes⟩
  | j, lru, disk, (t, k, none) :: rest =>
    let dst := (tr[j]?).getD t
    let r := fillMisses tr (j + 1) (lru.set k dst) (disk.set k dst) rest
    ⟨dst :: r.out, r.lru, r.disk, (k, dst) :: r.writes⟩

/-- Result of one orchestrator translateMany call. -/
structure TMResult where
  out : List String
  plugin : Plugin
  providerCalls : List (List String)
  writeBacks : List (String × String)
  promotions : List (String × String)
deriving Repr, DecidableEq

/-- The scanned items of a translateMany call (texts zipped with their keys
and hit slots), recomputed for use in theorem statements. -/
def Plugin.items (p : Plugin) (hash : String → String) (texts : List String) : List ScanItem :=
  let keys := texts.map (p.keyOf hash)
  texts.zip (keys.zip (scanHits p.disk p.lru keys).1)

/-- The texts of a translateMany call that miss both cache tiers, in their
relative order. -/
def Plugin.missTexts (p : Plugin) (hash : String → String) (texts : List String) : List String :=
  missList (p.items hash texts)

/-- plugin.translateMany (lines 203-239): compute keys, scan both cache tiers,
return immediately when nothing missed, fill misses with originals when
offlineOnly is set, otherwise invoke the Provider directly with the miss texts
and either write every returned value back into both tiers (success) or fill
the misses with originals (caught rejection). -/
def Plugin.translateMany (p : Plugin) (hash : String → String)
    (provider : List String → ProviderOutcome) (texts : List String) : TMResult :=
  let keys := texts.map (p.keyOf hash)
  let scan := scanHits p.disk p.lru keys
  let items := texts.zip (keys.zip scan.1)
  let p1 : Plugin := { p with lru := scan.2.1 }
  let misses := missList items
  if misses = [] then
    ⟨fillOriginals items, p1, [], [], scan.2.2⟩
  else if p.offlineOnly then
    ⟨fillOriginals items, p1, [], [], scan.2.2⟩
  else
    match provider misses with
    | .err => ⟨fillOriginals items, p1, [misses], [], scan.2.2⟩
    | .ok tr =>
      let f := fillMisses tr 0 scan.2.1 p.disk items
      ⟨f.out, { p with lru := f.lru, disk := f.disk }, [misses], f.writes, scan.2.2⟩

/-! ## Batch dispatcher: class TranslateQueue (main.js lines 121-142)

The running loop is modelled as a function of the queue contents at loop
entry (new enqueues during a run are outside the embedded trace), emitting an
event trace of Provider-path calls and sleeps and a settlement outcome per
queued task.  The awaited callee of line 132 is this.plugin.translateMany; it
is passed as a state-threading function that can either return an ordered
list (resolving tasks positionally, line 133) or throw (rejecting the whole
batch with one error, line 136). -/

structure QTask where
  text : String
deriving Repr, DecidableEq

inductive QEvent
  | call (texts : List String)
  | wait (ms : Nat)
deriving Repr, DecidableEq

/-- Settlement of one queued task's promise. -/
inductive TaskResult
  | resolved (v : String)
  | rejected (e : Nat)
deriving Repr, DecidableEq

structure RunResult (σ : Type) where
  events : List QEvent
  outcomes : List (Option TaskResult)
  final : σ
deriving Repr, DecidableEq

/-- The inter-batch delay of line 127:
Math.max(250, Math.floor(1000 / Math.max(1, rps))). -/
def interval (rps : Nat) : Nat :=
  max 250 (1000 / max 1 rps)

/-- Positional settlement of line 133, translated.forEach((dst, i) =>
tasks[i].resolve(dst)): task i is resolved with translated[i]; a task beyond
the returned list is never settled (modelled as none).  When the returned
list is longer than the batch, the forEach throws on the missing task and the
catch then calls reject on already-resolved promises, which is a no-op — so
every task ends up resolved positionally, as the recursion here produces. -/
def okOutcomes : List QTask → List String → List (Option TaskResult)
  | [], _ => []
  | _ :: tks, [] => none :: okOutcomes tks []
  | _ :: tks, d :: ds => some (.resolved d) :: okOutcomes tks ds

/-- Settlement of one batch (lines 131-137): positional resolution on
success; on a thrown error every task of the batch is rejected with that same
error (line 136). -/
def batchOutcomes (tasks : List QTask) : Except Nat (List String) → List (Option TaskResult)
  | .ok tr => okOutcomes tasks tr
  | .error e => tasks.map fun _ => some (.rejected e)

/-- The running loop of lines 124-141: while the queue is nonempty, splice off
up to b tasks, await the callee on their texts, settle the batch, sleep the
interval unconditionally, and iterate.  A batch size of 0 would loop forever
in the JS (splice(0, 0) removes nothing); the model returns immediately there
and every theorem assumes 0 < b, which the settings tab enforces with
Math.max(1, ...) (line 610). -/
def runQueue {σ : Type} (b iv : Nat) (callee : σ → List String → Except Nat (List String) × σ)
    (s : σ) (q : List QTask) : RunResult σ :=
  if h : q = [] ∨ b = 0 then ⟨[], [], s⟩
  else
    let tasks := q.take b
    let c := callee s (tasks.map QTask.text)
    let rest := runQueue b iv callee c.2 (q.drop b)
    ⟨.call (tasks.map QTask.text) :: .wait iv :: rest.events,
     batchOutcomes tasks c.1 ++ rest.outcomes, rest.final⟩
termination_by q.length
decreasing_by
  simp only [List.length_drop]
  rw [not_or] at h
  have h1 : 0 < q.length := List.length_pos.mpr h.1
  have h2 : 0 < b := Nat.pos_of_ne_zero h.2
  omega

/-- The FIFO chunking of a list into batches of size b (used to state the
shape of the dispatcher's trace). -/
def chunksB {α : Type} (b : Nat) : List α → List (List α)
  | [] => []
  | x :: xs =>
    if h : b = 0 then []
    else ((x :: xs).take b :: chunksB b ((x :: xs).drop b))
termination_by l => l.length
decreasing_by
  simp only [List.length_drop, List.length_cons]
  have h2 : 0 < b := Nat.pos_of_ne_zero h
  omega

/-- The dispatcher's awaited callee in the real wiring (line 132): the
orchestrator's translateMany, which never throws — a provider rejection is
caught inside it. -/
def orchCallee (hash : String → String) (provider : List String → ProviderOutcome) :
    Plugin → List String → Except Nat (List String) × Plugin :=
  fun p texts =>
    let r := p.translateMany hash provider texts
    (.ok r.out, r.plugin)

/-! ## Declarative companions used in theorem statements -/

/-- Per-position description of the output array after the write-back pass:
hit slots keep their cached value, the j-th miss receives
translated[j] ?? missTexts[j]. -/
def mergeOut (tr : List String) : Nat → List ScanItem → List String
  | _, [] => []
  | j, (_, _, some v) :: rest => v :: mergeOut tr j rest
  | j, (t, _, none) :: rest => (tr[j]?).getD t :: mergeOut tr (j + 1) rest

/-- Per-miss description of the write-back pairs: the j-th miss's key receives
translated[j] ?? missTexts[j]. -/
def expectedWrites (tr : List String) : Nat → List (String × String) → List (String × String)
  | _, [] => []
  | j, (t, k) :: rest => (k, (tr[j]?).getD t) :: expectedWrites tr (j + 1) rest

/-! ## Concrete states used by closed checks -/

/-- A plugin with default configuration and empty caches. -/
def samplePlugin : Plugin :=
  ⟨"azure", "auto", "ko", false, ⟨5000, []⟩, ⟨[], false⟩⟩

/-- A plugin whose memory cache maps the fingerprint of "hi" (under the
identity hash) to the empty string, with an empty persistent cache. -/
def emptyEntryPlugin : Plugin :=
  ⟨"azure", "auto", "ko", false, ⟨5000, [("azure|auto|ko|hi", "")]⟩, ⟨[], false⟩⟩

/-- A plugin whose persistent cache holds a non-empty translation for "hi"
(under the identity hash), with an empty memory cache. -/
def diskHitPlugin : Plugin :=
  ⟨"azure", "auto", "ko", false, ⟨5000, []⟩, ⟨[("azure|auto|ko|hi", "bonjour")], false⟩⟩

/-- A plugin whose memory cache maps the fingerprint of "hi" to the empty
string while the persistent cache maps it to a non-empty translation. -/
def shadowedPlugin : Plugin :=
  ⟨"azure", "auto", "ko", false, ⟨5000, [("azure|auto|ko|hi", "")]⟩,
   ⟨[("azure|auto|ko|hi", "bonjour")], false⟩⟩

/-! ## Helper lemmas on association lists -/

lemma eraseA_sublist (l : List (String × String)) (k : String) : List.Sublist (eraseA l k) l := by
  induction l with
  | nil => simp [eraseA]
  | cons a rest ih =>
    obtain ⟨a1, a2⟩ := a
    by_cases h : a1 = k
    · simp only [eraseA, if_pos h]
      exact ih.cons _
    · simp only [eraseA, if_neg h]
      exact ih.cons₂ _

lemma eraseA_of_not_mem {l : List (String × String)} {k : String}
    (h : k ∉ l.map Prod.fst) : eraseA l k = l := by
  induction l with
  | nil => rfl
  | cons a rest ih =>
    simp only [List.map_cons, List.mem_cons, not_or] at h
    have hne : a.1 ≠ k := fun he => h.1 he.symm
    obtain ⟨a1, a2⟩ := a
    simp only [eraseA, if_neg hne]
    rw [ih h.2]

lemma length_eraseA_of_mem_nodup {l : List (String × String)} {k : String}
    (hn : (l.map Prod.fst).Nodup) (hm : k ∈ l.map Prod.fst) :
    (eraseA l k).length + 1 = l.length := by
  induction l with
  | nil => simp at hm
  | cons a rest ih =>
    obtain ⟨a1, a2⟩ := a
    simp only [List.map_cons, List.nodup_cons] at hn
    by_cases h : a1 = k
    · subst h
      simp only [eraseA, if_pos rfl]
      rw [eraseA_of_not_mem hn.1]
      simp
    · simp only [List.map_cons, List.mem_cons] at hm
      rcases hm with hm | hm
      · exact absurd hm.symm h
      · simp only [eraseA, if_neg h, List.length_cons]
        rw [ih hn.2 hm]

lemma lookupA_eq_none_of_not_mem {l : List (String × String)} {k : String}
    (h : k ∉ l.map Prod.fst) : lookupA l k = none := by
  induction l with
  | nil => rfl
  | cons a rest ih =>
    simp only [List.map_cons, List.mem_cons, not_or] at h
    have hne : a.1 ≠ k := fun he => h.1 he.symm
    obtain ⟨a1, a2⟩ := a
    simp only [lookupA, if_neg hne]
    exact ih h.2

lemma lookupA_of_mem_nodup {l : List (String × String)} {k v : String}
    (hm : (k, v) ∈ l) (hn : (l.map Prod.fst).Nodup) : lookupA l k = some v := by
  induction l with
  | nil => simp at hm
  | cons a rest ih =>
    obtain ⟨a1, a2⟩ := a
    simp only [List.map_cons, List.nodup_cons] at hn
    simp only [List.mem_cons] at hm
    rcases hm with hm | hm
    · obtain ⟨h1, h2⟩ := Prod.mk.inj hm.symm
      simp [lookupA, h1, h2]
    · have hne : a1 ≠ k := by
        intro he
        subst he
        exact hn.1 (List.mem_map.mpr ⟨(a1, v), hm, rfl⟩)
      simp only [lookupA, if_neg hne]
      exact ih hm hn.2

lemma lookupA_append_of_none {l₁ l₂ : List (String × String)} {k : String}
    (h : lookupA l₁ k = none) : lookupA (l₁ ++ l₂) k = lookupA l₂ k := by
  induction l₁ with
  | nil => rfl
  | cons a rest ih =>
    obtain ⟨a1, a2⟩ := a
    by_cases he : a1 = k
    · simp [lookupA, he] at h
    · simp only [lookupA, if_neg he] at h
      simp only [List.cons_append, lookupA, if_neg he]
      exact ih h

lemma lookupA_eraseA_ne {l : List (String × String)} {k k' : String} (h : k ≠ k') :
    lookupA (eraseA l k') k = lookupA l k := by
  induction l with
  | nil => rfl
  | cons a rest ih =>
    obtain ⟨a1, a2⟩ := a
    by_cases h1 : a1 = k'
    · subst h1
      have hne : a1 ≠ k := fun he => h (he.symm)
      simp only [eraseA, if_pos rfl, lookupA, if_neg hne]
      exact ih
    · by_cases h2 : a1 = k
      · simp only [eraseA, if_neg h1, lookupA, if_pos h2]
      · simp only [eraseA, if_neg h1, lookupA, if_neg h2]
        exact ih

/-! ## C2: persistent-cache flush and the dirty flag -/

/-- C2 counterexample: flushing a dirty store whose durable write fails leaves
the dirty flag cleared (the code sets this.dirty = false before the write and
the catch branch only logs), contradicting the claim that the flag remains
set so that a later flush retries. -/
theorem c2_failed_write_clears_dirty :
    (DiskCache.flush ⟨[("k", "v")], true⟩ false).1.dirty = false := rfl

/-- C2 (amended): flush() clears the dirty flag before attempting the durable
write, so after any flush the flag is clear regardless of the write's
success — a failed write is not retried by a later debounced or periodic
flush; flush() on a clean store is a no-op that attempts no write, and on a
dirty store it attempts exactly one write with the map unchanged. -/
theorem c2_flush_dirty_semantics (d : DiskCache) (ok : Bool) :
    (d.flush ok).1.dirty = false ∧
    (d.dirty = false → d.flush ok = (d, none)) ∧
    (d.dirty = true → d.flush ok = (⟨d.map, false⟩, some ok)) := by
  obtain ⟨m, dd⟩ := d
  cases dd <;> simp [DiskCache.flush]

/-- Concrete check of c2_flush_dirty_semantics: a dirty store with a failing
write ends clean with the write attempted once. -/
theorem c2_flush_dirty_semantics_check :
    DiskCache.flush ⟨[("k", "v")], true⟩ false = (⟨[("k", "v")], false⟩, some false) :=
  (c2_flush_dirty_semantics ⟨[("k", "v")], true⟩ false).2.2 rfl

/-! ## C3: memory-cache capacity coercion -/

/-- C3 counterexample: the negative capacity -3 is not coerced to a safe
positive default — Number(v) || 5000 keeps every non-zero number, so the
configured capacity stays -3, which is not positive. -/
theorem c3_negative_capacity_kept :
    coerceCacheLimit (.num (-3)) = -3 ∧ ¬ (0 < coerceCacheLimit (.num (-3))) := by
  constructor
  · rfl
  · decide

/-- C3 (amended): only non-numeric input (NaN) and zero are coerced to the
default 5000; every other number, negative ones included, is used as-is, and
an LRU built with a negative capacity retains nothing — each insert into it
is immediately evicted. -/
theorem c3_capacity_coercion (n : Int) :
    coerceCacheLimit .nan = 5000 ∧
    coerceCacheLimit (.num 0) = 5000 ∧
    (n ≠ 0 → coerceCacheLimit (.num n) = n) ∧
    (n < 0 → ∀ k v : String, (LRU.set ⟨n, []⟩ k v).entries = []) := by
  refine ⟨rfl, rfl, ?_, ?_⟩
  · intro h
    simp [coerceCacheLimit, h]
  · intro h k v
    have h1 : n < (1 : Int) := by omega
    simp [LRU.set, eraseA, h1]

/-- Concrete check of c3_capacity_coercion at capacity -7. -/
theorem c3_capacity_coercion_check :
    coerceCacheLimit (.num (-7)) = -7 ∧ (LRU.set ⟨-7, []⟩ "k" "v").entries = [] :=
  ⟨(c3_capacity_coercion (-7)).2.2.1 (by decide),
   (c3_capacity_coercion (-7)).2.2.2 (by decide) "k" "v"⟩

/-! ## C5: fingerprint determinism and the pipe separator -/

lemma pipe_split_inj {l₁ l₂ r₁ r₂ : List Char}
    (h₁ : '|' ∉ l₁) (h₂ : '|' ∉ l₂)
    (h : l₁ ++ '|' :: r₁ = l₂ ++ '|' :: r₂) : l₁ = l₂ ∧ r₁ = r₂ := by
  induction l₁ generalizing l₂ with
  | nil =>
    cases l₂ with
    | nil => simpa using h
    | cons b bs =>
      simp only [List.nil_append, List.cons_append, List.cons.injEq] at h
      rw [← h.1] at h₂
      exact absurd (List.mem_cons_self _ _) h₂
  | cons a as ih =>
    cases l₂ with
    | nil =>
      simp only [List.cons_append, List.nil_append, List.cons.injEq] at h
      rw [h.1] at h₁
      exact absurd (List.mem_cons_self _ _) h₁
    | cons b bs =>
      simp only [List.cons_append, List.cons.injEq] at h
      have h₁' : '|' ∉ as := fun hm => h₁ (List.mem_cons_of_mem a hm)
      have h₂' : '|' ∉ bs := fun hm => h₂ (List.mem_cons_of_mem b hm)
      obtain ⟨he, hr⟩ := ih h₁' h₂' h.2
      exact ⟨by rw [h.1, he], hr⟩

lemma joinKey_data (p s t x : String) :
    (joinKey p s t x).data =
      p.data ++ '|' :: (s.data ++ '|' :: (t.data ++ '|' :: x.data)) := by
  have h : joinKey p s t x = p ++ "|" ++ (s ++ "|" ++ (t ++ "|" ++ x)) := by
    simp [joinKey, String.intercalate, String.intercalate.go, String.append_assoc]
  rw [h]
  simp [String.data_append]

/-- C5 counterexample: two tuples that differ in the first two fields but
share the same pre-hash encoding — the pipe separator is ambiguous when a
field itself contains a pipe, so distinct tuples can collide before hashing. -/
theorem c5_separator_ambiguous :
    joinKey "a|b" "c" "d" "e" = joinKey "a" "b|c" "d" "e" ∧
    ("a|b", "c", "d", "e") ≠ (("a", "b|c", "d", "e") : String × String × String × String) := by
  constructor
  · rfl
  · decide

/-- C5 (amended): the fingerprint is deterministic — equal inputs give equal
fingerprints — and the pre-hash encodings of two tuples are distinct whenever
the tuples differ, provided the first three fields (provider id and the two
language codes) contain no pipe character; the separator is ambiguous only
when a joined field itself contains a pipe. -/
theorem c5_fingerprint_deterministic_and_injective
    (hash : String → String) (p s t x p' s' t' x' : String)
    (hp : '|' ∉ p.data) (hs : '|' ∉ s.data) (ht : '|' ∉ t.data)
    (hp' : '|' ∉ p'.data) (hs' : '|' ∉ s'.data) (ht' : '|' ∉ t'.data)
    (heq : joinKey p s t x = joinKey p' s' t' x') :
    fingerprintOf hash p s t x = fingerprintOf hash p s t x ∧
    (p = p' ∧ s = s' ∧ t = t' ∧ x = x') := by
  refine ⟨rfl, ?_⟩
  have hd := congrArg String.data heq
  rw [joinKey_data, joinKey_data] at hd
  obtain ⟨e1, hd⟩ := pipe_split_inj hp hp' hd
  obtain ⟨e2, hd⟩ := pipe_split_inj hs hs' hd
  obtain ⟨e3, e4⟩ := pipe_split_inj ht ht' hd
  exact ⟨String.ext e1, String.ext e2, String.ext e3, String.ext e4⟩

/-- Concrete check of c5_fingerprint_deterministic_and_injective on pipe-free
fields. -/
theorem c5_fingerprint_injective_check :
    fingerprintOf id "azure" "auto" "ko" "hi" = fingerprintOf id "azure" "auto" "ko" "hi" ∧
    ("azure" = "azure" ∧ "auto" = "auto" ∧ "ko" = "ko" ∧ "hi" = "hi") :=
  c5_fingerprint_deterministic_and_injective id "azure" "auto" "ko" "hi" "azure" "auto" "ko" "hi"
    (by decide) (by decide) (by decide) (by decide) (by decide) (by decide) rfl

/-! ## C7: LRU eviction and recency protection -/

lemma insertAll_cons (c : LRU) (hd : String × String) (rest : List (String × String)) :
    c.insertAll (hd :: rest) = (c.set hd.1 hd.2).insertAll rest := by
  simp [LRU.insertAll]

lemma insertAll_no_evict (cap : Int) :
    ∀ (ps acc : List (String × String)),
      (((acc ++ ps).map Prod.fst).Nodup) →
      ((acc.length + ps.length : Int) ≤ cap) →
      (LRU.insertAll ⟨cap, acc⟩ ps).entries = acc ++ ps := by
  intro ps
  induction ps with
  | nil =>
    intro acc _ _
    simp [LRU.insertAll]
  | cons hd rest ih =>
    intro acc hnd hlen
    obtain ⟨k, v⟩ := hd
    have hassoc : (acc ++ [(k, v)]) ++ rest = acc ++ (k, v) :: rest := by simp
    have hkacc : k ∉ acc.map Prod.fst := by
      have h2 := hnd
      rw [(by simp : ((acc ++ (k, v) :: rest).map Prod.fst) =
        acc.map Prod.fst ++ k :: rest.map Prod.fst), List.nodup_append] at h2
      exact fun hk => h2.2.2 hk (List.mem_cons_self _ _)
    have hc : ¬ (cap < (((acc ++ [(k, v)]).length : Nat) : Int)) := by
      simp only [List.length_append, List.length_cons, List.length_nil, not_lt]
      simp only [List.length_cons] at hlen
      push_cast at hlen ⊢
      omega
    have hset : (⟨cap, acc⟩ : LRU).set k v = ⟨cap, acc ++ [(k, v)]⟩ := by
      simp only [LRU.set, eraseA_of_not_mem hkacc]
      rw [if_neg hc]
    rw [insertAll_cons]
    simp only
    rw [hset]
    have hstep := ih (acc ++ [(k, v)])
      (by rw [hassoc]; exact hnd)
      (by
        simp only [List.length_append, List.length_cons, List.length_nil]
        simp only [List.length_cons] at hlen
        push_cast at hlen ⊢
        omega)
    rw [hstep, hassoc]

lemma set_limit (c : LRU) (k v : String) : (c.set k v).limit = c.limit := by
  simp only [LRU.set]
  split <;> rfl

lemma insertAll_limit (c : LRU) (ps : List (String × String)) :
    (c.insertAll ps).limit = c.limit := by
  induction ps generalizing c with
  | nil => rfl
  | cons hd rest ih =>
    rw [insertAll_cons, ih, set_limit]

lemma insertAll_append (c : LRU) (l₁ l₂ : List (String × String)) :
    c.insertAll (l₁ ++ l₂) = (c.insertAll l₁).insertAll l₂ := by
  simp [LRU.insertAll, List.foldl_append]

lemma LRU.eq_of_parts {a b : LRU} (h1 : a.limit = b.limit) (h2 : a.entries = b.entries) :
    a = b := by
  cases a
  cases b
  simp_all

/-- C7 counterexample: with capacity 1, insert "a", access it via get, then
insert the distinct key "b" — the accessed key "a" is still the one evicted,
so a get before the (capacity+1)-th insert does not protect a key from that
eviction when the capacity is 1. -/
theorem c7_capacity_one_no_protection :
    ((((⟨(1 : Int), []⟩ : LRU).set "a" "va").get "a").2.set "b" "vb").entries = [("b", "vb")] ∧
    "a" ∉ (((((⟨(1 : Int), []⟩ : LRU).set "a" "va").get "a").2.set "b" "vb").entries.map Prod.fst) := by
  decide

/-- C7 (amended): for positive capacity c, inserting c+1 distinct keys into an
empty memory cache evicts exactly one entry, the least-recently-used (first
inserted) one — the result is exactly the last c inserts in order; and for
c at least 2, accessing one of the first c keys via get before the (c+1)-th
insert moves it to most-recently-used position and protects it from that
eviction: after the fresh insert the accessed key is still present, the fresh
key is present, and the size is back to c (exactly one other entry was
evicted).  At capacity 1 the protection fails (see the counterexample). -/
theorem c7_lru_eviction_and_protection :
    (∀ (cap : Nat) (ps : List (String × String)),
      0 < cap → ps.length = cap + 1 → (ps.map Prod.fst).Nodup →
      (LRU.insertAll ⟨(cap : Int), []⟩ ps).entries = ps.drop 1) ∧
    (∀ (cap : Nat) (ps : List (String × String)) (kj vj knew vnew : String),
      2 ≤ cap → ps.length = cap → (ps.map Prod.fst).Nodup →
      (kj, vj) ∈ ps → knew ∉ ps.map Prod.fst →
      kj ∈ ((((LRU.insertAll ⟨(cap : Int), []⟩ ps).get kj).2).set knew vnew).entries.map Prod.fst ∧
      (knew, vnew) ∈ ((((LRU.insertAll ⟨(cap : Int), []⟩ ps).get kj).2).set knew vnew).entries ∧
      ((((LRU.insertAll ⟨(cap : Int), []⟩ ps).get kj).2).set knew vnew).entries.length = cap) := by
  constructor
  · intro cap ps hpos hlen hnd
    obtain ⟨e, he⟩ : ∃ e, ps.drop cap = [e] := by
      apply List.length_eq_one.mp
      rw [List.length_drop, hlen]
      omega
    obtain ⟨e1, e2⟩ := e
    have htke : ps.take cap ++ [(e1, e2)] = ps := by rw [← he, List.take_append_drop]
    have htklen : (ps.take cap).length = cap := by
      rw [List.length_take, hlen]
      omega
    have hndt : ((ps.take cap ++ [(e1, e2)]).map Prod.fst).Nodup := by rw [htke]; exact hnd
    have hfirst : (LRU.insertAll ⟨(cap : Int), []⟩ (ps.take cap)) = ⟨(cap : Int), ps.take cap⟩ := by
      apply LRU.eq_of_parts
      · rw [insertAll_limit]
      · have hne := insertAll_no_evict (cap : Int) (ps.take cap) []
        simp only [List.nil_append, List.length_nil] at hne
        apply hne
        · exact List.Nodup.sublist (List.Sublist.map Prod.fst (List.take_sublist cap ps)) hnd
        · rw [htklen]
          push_cast
          omega
    have hsplit : LRU.insertAll ⟨(cap : Int), []⟩ ps =
        (LRU.insertAll ⟨(cap : Int), []⟩ (ps.take cap)).insertAll [(e1, e2)] := by
      conv_lhs => rw [← htke]
      rw [insertAll_append]
    rw [hsplit, hfirst]
    have hone : (⟨(cap : Int), ps.take cap⟩ : LRU).insertAll [(e1, e2)] =
        (⟨(cap : Int), ps.take cap⟩ : LRU).set e1 e2 := by
      simp [LRU.insertAll]
    rw [hone]
    have hefresh : e1 ∉ (ps.take cap).map Prod.fst := by
      rw [(by simp : ((ps.take cap ++ [(e1, e2)]).map Prod.fst) =
        (ps.take cap).map Prod.fst ++ [e1]), List.nodup_append] at hndt
      exact fun hk => hndt.2.2 hk (by simp)
    have hcond : (cap : Int) < (((ps.take cap ++ [(e1, e2)]).length : Nat) : Int) := by
      simp only [List.length_append, List.length_cons, List.length_nil, htklen]
      push_cast
      omega
    unfold LRU.set
    simp only [eraseA_of_not_mem hefresh]
    rw [if_pos hcond]
    simp only
    rw [List.drop_append_of_le_length (by omega : 1 ≤ (ps.take cap).length)]
    conv_rhs => rw [← htke]
    rw [List.drop_append_of_le_length (by omega : 1 ≤ (ps.take cap).length)]
  · intro cap ps kj vj knew vnew hcap hlen hnd hmem hfresh
    have hc1 : LRU.insertAll ⟨(cap : Int), []⟩ ps = ⟨(cap : Int), ps⟩ := by
      apply LRU.eq_of_parts
      · rw [insertAll_limit]
      · have hne := insertAll_no_evict (cap : Int) ps []
        simp only [List.nil_append, List.length_nil] at hne
        apply hne hnd
        rw [hlen]
        push_cast
        omega
    rw [hc1]
    have hkj : kj ∈ ps.map Prod.fst := List.mem_map.mpr ⟨(kj, vj), hmem, rfl⟩
    have hget : (⟨(cap : Int), ps⟩ : LRU).get kj =
        (some vj, ⟨(cap : Int), eraseA ps kj ++ [(kj, vj)]⟩) := by
      simp only [LRU.get, lookupA_of_mem_nodup hmem hnd]
    rw [hget]
    have hknewne : knew ≠ kj := fun heq => hfresh (heq ▸ hkj)
    have hfresh2 : knew ∉ (eraseA ps kj ++ [(kj, vj)]).map Prod.fst := by
      simp only [List.map_append, List.mem_append, List.map_cons, List.map_nil,
        List.mem_cons, List.not_mem_nil, or_false, not_or]
      constructor
      · exact fun hk =>
          hfresh ((List.Sublist.map Prod.fst (eraseA_sublist ps kj)).subset hk)
      · exact hknewne
    have herlen : (eraseA ps kj).length + 1 = cap := by
      rw [length_eraseA_of_mem_nodup hnd hkj, hlen]
    have hcond2 : (cap : Int) <
        ((((eraseA ps kj ++ [(kj, vj)]) ++ [(knew, vnew)]).length : Nat) : Int) := by
      simp only [List.length_append, List.length_cons, List.length_nil]
      push_cast
      omega
    unfold LRU.set
    simp only [eraseA_of_not_mem hfresh2]
    rw [if_pos hcond2]
    simp only
    rw [List.append_assoc]
    rw [List.drop_append_of_le_length (by omega : 1 ≤ (eraseA ps kj).length)]
    refine ⟨?_, ?_, ?_⟩
    · simp
    · simp
    · simp only [List.length_append, List.length_drop, List.length_cons, List.length_nil]
      omega

/-- Concrete check of c7_lru_eviction_and_protection at capacity 2: three
distinct inserts evict exactly the first key, and a get protects the accessed
key from the eviction caused by a fresh third insert. -/
theorem c7_lru_eviction_and_protection_check :
    (LRU.insertAll ⟨(2 : Int), []⟩ [("a", "1"), ("b", "2"), ("c", "3")]).entries =
      [("b", "2"), ("c", "3")] ∧
    "a" ∈ ((((LRU.insertAll ⟨(2 : Int), []⟩ [("a", "1"), ("b", "2")]).get "a").2).set
      "c" "3").entries.map Prod.fst :=
  ⟨c7_lru_eviction_and_protection.1 2 [("a", "1"), ("b", "2"), ("c", "3")]
      (by decide) (by decide) (by decide),
   (c7_lru_eviction_and_protection.2 2 [("a", "1"), ("b", "2")] "a" "1" "c" "3"
      (by decide) (by decide) (by decide) (by decide) (by decide)).1⟩

/-! ## Shared lemmas about the orchestrator -/

lemma scanHits_length (disk : DiskCache) :
    ∀ (keys : List String) (lru : LRU),
      (scanHits disk lru keys).1.length = keys.length := by
  intro keys
  induction keys with
  | nil => intro lru; rfl
  | cons k ks ih =>
    intro lru
    simp only [scanHits]
    cases hj : jsOr ((lru.get k).1) (disk.get k) with
    | some v => simp [hj, ih]
    | none => simp [hj, ih]

lemma missList_sublist (l : List ScanItem) :
    List.Sublist (missList l) (l.map (fun it => it.1)) := by
  induction l with
  | nil => simp [missList]
  | cons it rest ih =>
    obtain ⟨t, k, slot⟩ := it
    cases slot with
    | none =>
      simp only [missList, List.map_cons]
      exact ih.cons₂ _
    | some v =>
      simp only [missList, List.map_cons]
      exact ih.cons _

lemma items_map_fst (p : Plugin) (hash : String → String) (texts : List String) :
    (p.items hash texts).map (fun it => it.1) = texts := by
  unfold Plugin.items
  have h1 : ((texts.map (p.keyOf hash)).zip
      (scanHits p.disk p.lru (texts.map (p.keyOf hash))).1).length = texts.length := by
    rw [List.length_zip, scanHits_length, List.length_map]
    simp
  exact List.map_fst_zip _ _ (le_of_eq h1.symm)

/-- The orchestrator's Provider invocations: none when every text hit a cache
tier or offlineOnly is set, otherwise exactly one direct call carrying the
miss texts. -/
lemma translateMany_providerCalls (hash : String → String)
    (provider : List String → ProviderOutcome) (p : Plugin) (texts : List String) :
    (p.translateMany hash provider texts).providerCalls =
      (if p.missTexts hash texts = [] ∨ p.offlineOnly = true then []
       else [p.missTexts hash texts]) := by
  unfold Plugin.translateMany Plugin.missTexts Plugin.items
  by_cases h1 : missList (texts.zip ((texts.map (p.keyOf hash)).zip
      (scanHits p.disk p.lru (texts.map (p.keyOf hash))).1)) = []
  · simp [h1]
  · by_cases h2 : p.offlineOnly
    · simp [h1, h2]
    · cases hp : provider (missList (texts.zip ((texts.map (p.keyOf hash)).zip
          (scanHits p.disk p.lru (texts.map (p.keyOf hash))).1))) with
      | ok tr => simp [h1, h2, hp]
      | err => simp [h1, h2, hp]

/-! ## C1: how misses reach the Provider -/

/-- C1 counterexample: with empty caches and offlineOnly unset, a single miss
makes the orchestrator's translateMany invoke the Provider capability
directly (line 229) — there is no dispatcher between the orchestrator and the
Provider, contradicting the claim that misses are submitted to the Batch
Dispatcher and that the orchestrator never invokes the Provider directly.  In
the real wiring the dispatcher sits above the orchestrator: batch() enqueues
per-text requests and the dispatcher's run loop awaits plugin.translateMany
(line 132). -/
theorem c1_direct_provider_invocation :
    (samplePlugin.translateMany id (fun ts => .ok (ts.map fun t => t ++ "!"))
      ["hello"]).providerCalls = [["hello"]] := by
  decide

/-- C1 (amended): in the orchestrator's translateMany, the texts whose
fingerprints miss both cache tiers are passed, in their relative order (a
sublist of the input), as the payload of exactly one direct Provider
translateMany call; no call is made when there are no misses or when
offlineOnly is set.  The Batch Dispatcher is not below the orchestrator but
above it: batch() enqueues per-text requests and the dispatcher loop invokes
the orchestrator once per batch. -/
theorem c1_misses_one_direct_call (hash : String → String)
    (provider : List String → ProviderOutcome) (p : Plugin) (texts : List String) :
    (p.translateMany hash provider texts).providerCalls =
      (if p.missTexts hash texts = [] ∨ p.offlineOnly = true then []
       else [p.missTexts hash texts]) ∧
    List.Sublist (p.missTexts hash texts) texts := by
  refine ⟨translateMany_providerCalls hash provider p texts, ?_⟩
  have h := missList_sublist (p.items hash texts)
  rw [items_map_fst] at h
  exact h

/-! ## C4: write-back of returned values -/

lemma fillMisses_out (tr : List String) :
    ∀ (items : List ScanItem) (j : Nat) (lru : LRU) (disk : DiskCache),
      (fillMisses tr j lru disk items).out = mergeOut tr j items := by
  intro items
  induction items with
  | nil => intro j lru disk; rfl
  | cons it rest ih =>
    intro j lru disk
    obtain ⟨t, k, slot⟩ := it
    cases slot with
    | none => simp [fillMisses, mergeOut, ih]
    | some v => simp [fillMisses, mergeOut, ih]

lemma fillMisses_writes (tr : List String) :
    ∀ (items : List ScanItem) (j : Nat) (lru : LRU) (disk : DiskCache),
      (fillMisses tr j lru disk items).writes = expectedWrites tr j (missKV items) := by
  intro items
  induction items with
  | nil => intro j lru disk; rfl
  | cons it rest ih =>
    intro j lru disk
    obtain ⟨t, k, slot⟩ := it
    cases slot with
    | none => simp [fillMisses, missKV, expectedWrites, ih]
    | some v => simp [fillMisses, missKV, ih]

/-- C4 counterexample: with empty caches, a provider result that is the empty
string at a miss position is written into the output slot as-is — the ??
fallback of line 237 fires only for null/undefined, not for the empty string,
so the slot does not receive the original source text as the claim states. -/
theorem c4_empty_result_kept :
    (samplePlugin.translateMany id (fun _ => .ok [""]) ["hi"]).out = [""] ∧
    (samplePlugin.translateMany id (fun _ => .ok [""]) ["hi"]).out ≠ ["hi"] ∧
    (samplePlugin.translateMany id (fun _ => .ok [""]) ["hi"]).writeBacks =
      [("azure|auto|ko|hi", "")] := by
  decide

/-- C4 (amended): in step 7, the j-th miss position receives
translated[j] ?? missTexts[j] — only an absent (null/undefined, here
out-of-range) provider value falls back to the original source text, while an
empty-string value is kept as-is; every resulting value, fallback originals
included, is written into both cache tiers under the miss's fingerprint and
into the corresponding output slot, and hit slots keep their cached value. -/
theorem c4_writeback_semantics (hash : String → String) (p : Plugin)
    (texts tr : List String) (hoff : p.offlineOnly = false)
    (hmiss : p.missTexts hash texts ≠ []) :
    (p.translateMany hash (fun _ => .ok tr) texts).out =
      mergeOut tr 0 (p.items hash texts) ∧
    (p.translateMany hash (fun _ => .ok tr) texts).writeBacks =
      expectedWrites tr 0 (missKV (p.items hash texts)) := by
  unfold Plugin.missTexts Plugin.items at hmiss
  unfold Plugin.translateMany Plugin.items
  simp only [if_neg hmiss, hoff, Bool.false_eq_true, if_false]
  rw [fillMisses_out, fillMisses_writes]
  exact ⟨rfl, rfl⟩

/-- Concrete check of c4_writeback_semantics: two misses, a one-element
provider result — the first slot gets the returned value, the second falls
back to its original text, and both pairs are written back. -/
theorem c4_writeback_semantics_check :
    (samplePlugin.translateMany id (fun _ => .ok ["X"]) ["a", "b"]).out =
      mergeOut ["X"] 0 (samplePlugin.items id ["a", "b"]) ∧
    (samplePlugin.translateMany id (fun _ => .ok ["X"]) ["a", "b"]).writeBacks =
      expectedWrites ["X"] 0 (missKV (samplePlugin.items id ["a", "b"])) :=
  c4_writeback_semantics id samplePlugin ["a", "b"] ["X"] rfl (by decide)

/-! ## C6: cache hits short-circuiting dispatch -/

lemma truthy_some_ne {o : Option String} {v : String} (h : truthy o = some v) : v ≠ "" := by
  cases o with
  | none => simp [truthy] at h
  | some s =>
    by_cases hs : s = ""
    · simp [truthy, hs] at h
    · simp only [truthy, if_neg hs, Option.some.injEq] at h
      rw [← h]
      exact hs

lemma scanHits_all_disk_truthy (disk : DiskCache) :
    ∀ (keys : List String) (lru : LRU),
      (∀ k ∈ keys, truthy (disk.get k) ≠ none) →
      (scanHits disk lru keys).1 =
        ((scanHits disk lru keys).2.2).map (fun kv => some kv.2) ∧
      ((scanHits disk lru keys).2.2).map Prod.fst = keys ∧
      ∀ kv ∈ (scanHits disk lru keys).2.2, kv.2 ≠ "" := by
  intro keys
  induction keys with
  | nil =>
    intro lru _
    exact ⟨rfl, rfl, by simp [scanHits]⟩
  | cons k ks ih =>
    intro lru hk
    have hkd : truthy (disk.get k) ≠ none := hk k (List.mem_cons_self _ _)
    obtain ⟨v, hv, hvne⟩ : ∃ v, jsOr ((lru.get k).1) (disk.get k) = some v ∧ v ≠ "" := by
      unfold jsOr
      cases ht : truthy ((lru.get k).1) with
      | some w => exact ⟨w, rfl, truthy_some_ne ht⟩
      | none =>
        cases hd2 : truthy (disk.get k) with
        | none => exact absurd hd2 hkd
        | some w => exact ⟨w, rfl, truthy_some_ne hd2⟩
    obtain ⟨ih1, ih2, ih3⟩ :=
      ih (((lru.get k).2).set k v) (fun k' hk' => hk k' (List.mem_cons_of_mem _ hk'))
    refine ⟨?_, ?_, ?_⟩
    · simp only [scanHits, hv]
      simp [ih1]
    · simp only [scanHits, hv]
      simp [ih2]
    · simp only [scanHits, hv]
      intro kv hkv
      simp only [List.mem_cons] at hkv
      rcases hkv with h | h
      · rw [h]
        exact hvne
      · exact ih3 kv h

lemma missList_zip_somes :
    ∀ (ts ks vs : List String),
      missList (ts.zip (ks.zip (vs.map some))) = [] := by
  intro ts
  induction ts with
  | nil => intro ks vs; rfl
  | cons t ts' ih =>
    intro ks vs
    cases ks with
    | nil => rfl
    | cons k ks' =>
      cases vs with
      | nil => rfl
      | cons v vs' =>
        simp only [List.map_cons, List.zip_cons_cons, missList]
        exact ih ks' vs'

lemma fillOriginals_zip_somes :
    ∀ (ts ks vs : List String), ts.length = ks.length → ks.length = vs.length →
      fillOriginals (ts.zip (ks.zip (vs.map some))) = vs := by
  intro ts
  induction ts with
  | nil =>
    intro ks vs h1 h2
    cases ks with
    | nil =>
      cases vs with
      | nil => rfl
      | cons v vs' => simp at h2
    | cons k ks' => simp at h1
  | cons t ts' ih =>
    intro ks vs h1 h2
    cases ks with
    | nil => simp at h1
    | cons k ks' =>
      cases vs with
      | nil => simp at h2
      | cons v vs' =>
        simp only [List.map_cons, List.zip_cons_cons, fillOriginals]
        simp only [List.length_cons, Nat.add_right_cancel_iff] at h1 h2
        exact congrArg (fun l => v :: l) (ih ks' vs' h1 h2)

/-- C6 counterexample: the fingerprint of "hi" is present in the memory cache
(mapped to the empty string) and there is no persistent entry, yet
translateMany invokes the Provider — presence in a cache tier does not
short-circuit dispatch when the stored value is the empty string, because the
truthiness test of line 215 treats it as a miss. -/
theorem c6_present_empty_entry_dispatches :
    (lookupA emptyEntryPlugin.lru.entries (emptyEntryPlugin.keyOf id "hi")).isSome = true ∧
    (emptyEntryPlugin.translateMany id (fun _ => .ok ["X"]) ["hi"]).providerCalls =
      [["hi"]] := by
  decide

/-- C6 (amended): when every requested text's fingerprint is mapped to a
non-empty value in the persistent cache, translateMany completes with no
Provider invocation and no write-back; every text's value is refreshed into
the memory cache (one promotion per text, keyed by its fingerprint, in input
order), and the output is exactly the promoted cached values in input order,
all non-empty.  (Presence alone is not enough: an empty-string entry is
treated as a miss — see the counterexample — and a value present only in the
memory tier can be evicted mid-scan by a promotion when capacity is tight.) -/
theorem c6_nonempty_disk_short_circuit (hash : String → String)
    (provider : List String → ProviderOutcome) (p : Plugin) (texts : List String)
    (hd : ∀ t ∈ texts, truthy (p.disk.get (p.keyOf hash t)) ≠ none) :
    (p.translateMany hash provider texts).providerCalls = [] ∧
    (p.translateMany hash provider texts).writeBacks = [] ∧
    (p.translateMany hash provider texts).promotions.map Prod.fst =
      texts.map (p.keyOf hash) ∧
    (p.translateMany hash provider texts).out =
      (p.translateMany hash provider texts).promotions.map Prod.snd ∧
    ∀ v ∈ (p.translateMany hash provider texts).out, v ≠ "" := by
  have hd' : ∀ k ∈ texts.map (p.keyOf hash), truthy (p.disk.get k) ≠ none := by
    intro k hkm
    obtain ⟨t, htm, rfl⟩ := List.mem_map.mp hkm
    exact hd t htm
  obtain ⟨h1, h2, h3⟩ :=
    scanHits_all_disk_truthy p.disk (texts.map (p.keyOf hash)) p.lru hd'
  have hlen2 : ((scanHits p.disk p.lru (texts.map (p.keyOf hash))).2.2).length =
      texts.length := by
    have := congrArg List.length h2
    simpa using this
  have hmiss : missList (texts.zip ((texts.map (p.keyOf hash)).zip
      (scanHits p.disk p.lru (texts.map (p.keyOf hash))).1)) = [] := by
    rw [h1, (by simp : ((scanHits p.disk p.lru (texts.map (p.keyOf hash))).2.2).map
      (fun kv => some kv.2) =
      (((scanHits p.disk p.lru (texts.map (p.keyOf hash))).2.2).map Prod.snd).map some)]
    exact missList_zip_somes _ _ _
  have hfill : fillOriginals (texts.zip ((texts.map (p.keyOf hash)).zip
      (scanHits p.disk p.lru (texts.map (p.keyOf hash))).1)) =
      ((scanHits p.disk p.lru (texts.map (p.keyOf hash))).2.2).map Prod.snd := by
    rw [h1, (by simp : ((scanHits p.disk p.lru (texts.map (p.keyOf hash))).2.2).map
      (fun kv => some kv.2) =
      (((scanHits p.disk p.lru (texts.map (p.keyOf hash))).2.2).map Prod.snd).map some)]
    exact fillOriginals_zip_somes texts (texts.map (p.keyOf hash))
      (((scanHits p.disk p.lru (texts.map (p.keyOf hash))).2.2).map Prod.snd)
      (by simp) (by simp [hlen2])
  unfold Plugin.translateMany
  simp only [hmiss, if_pos rfl]
  refine ⟨rfl, rfl, h2, hfill, ?_⟩
  show ∀ v ∈ fillOriginals (texts.zip ((texts.map (p.keyOf hash)).zip
      (scanHits p.disk p.lru (texts.map (p.keyOf hash))).1)), v ≠ ""
  rw [hfill]
  intro v hv
  obtain ⟨kv, hkv, rfl⟩ := List.mem_map.mp hv
  exact h3 kv hkv

/-- Concrete check of c6_nonempty_disk_short_circuit: one disk-cached text is
answered with no Provider call and a promotion into the memory cache. -/
theorem c6_nonempty_disk_short_circuit_check :
    (diskHitPlugin.translateMany id (fun _ => .ok ["X"]) ["hi"]).providerCalls = [] ∧
    (diskHitPlugin.translateMany id (fun _ => .ok ["X"]) ["hi"]).out =
      (diskHitPlugin.translateMany id (fun _ => .ok ["X"]) ["hi"]).promotions.map
        Prod.snd :=
  ⟨(c6_nonempty_disk_short_circuit id (fun _ => .ok ["X"]) diskHitPlugin ["hi"]
      (by decide)).1,
   (c6_nonempty_disk_short_circuit id (fun _ => .ok ["X"]) diskHitPlugin ["hi"]
      (by decide)).2.2.2.1⟩

/-! ## C10: empty-string cache entries behave as misses -/

lemma lookupA_append_of_some {l₁ l₂ : List (String × String)} {k v : String}
    (h : lookupA l₁ k = some v) : lookupA (l₁ ++ l₂) k = some v := by
  induction l₁ with
  | nil => simp [lookupA] at h
  | cons a rest ih =>
    obtain ⟨a1, a2⟩ := a
    simp only [List.cons_append, lookupA] at h ⊢
    by_cases he : a1 = k
    · rw [if_pos he] at h ⊢
      exact h
    · rw [if_neg he] at h ⊢
      exact ih h

lemma lru_get_fst (c : LRU) (k : String) : (c.get k).1 = lookupA c.entries k := by
  unfold LRU.get
  cases lookupA c.entries k <;> rfl

lemma lru_get_entries (c : LRU) (k : String) :
    ((c.get k).2).entries =
      (match lookupA c.entries k with
        | none => c.entries
        | some v => eraseA c.entries k ++ [(k, v)]) := by
  unfold LRU.get
  cases lookupA c.entries k <;> rfl

lemma not_mem_keys_eraseA_self (l : List (String × String)) (k : String) :
    k ∉ (eraseA l k).map Prod.fst := by
  induction l with
  | nil => simp [eraseA]
  | cons a rest ih =>
    obtain ⟨a1, a2⟩ := a
    by_cases he : a1 = k
    · simp only [eraseA, if_pos he]
      exact ih
    · simp only [eraseA, if_neg he, List.map_cons, List.mem_cons, not_or]
      exact ⟨fun h => he h.symm, ih⟩

lemma nodup_keys_erase_append {l : List (String × String)} {k v : String}
    (h : (l.map Prod.fst).Nodup) :
    ((eraseA l k ++ [(k, v)]).map Prod.fst).Nodup := by
  rw [List.map_append, List.nodup_append]
  refine ⟨List.Nodup.sublist (List.Sublist.map Prod.fst (eraseA_sublist l k)) h, by simp, ?_⟩
  intro a ha hb
  simp only [List.map_cons, List.map_nil, List.mem_cons, List.not_mem_nil, or_false] at hb
  rw [hb] at ha
  exact not_mem_keys_eraseA_self l k ha

lemma nodup_after_get {c : LRU} {k : String}
    (h : (c.entries.map Prod.fst).Nodup) :
    (((c.get k).2).entries.map Prod.fst).Nodup := by
  rw [lru_get_entries]
  cases hl : lookupA c.entries k with
  | none => simpa only [hl] using h
  | some v =>
    simp only [hl]
    exact nodup_keys_erase_append h

lemma nodup_after_set {c : LRU} (k v : String)
    (h : (c.entries.map Prod.fst).Nodup) :
    ((c.set k v).entries.map Prod.fst).Nodup := by
  have hbase : ((eraseA c.entries k ++ [(k, v)]).map Prod.fst).Nodup :=
    nodup_keys_erase_append h
  simp only [LRU.set]
  split
  · exact List.Nodup.sublist
      (List.Sublist.map Prod.fst (List.drop_sublist 1 _)) hbase
  · exact hbase

lemma falsy_tail {l : List (String × String)} {k : String}
    (hnd : (l.map Prod.fst).Nodup) (h : truthy (lookupA l k) = none) :
    truthy (lookupA (l.drop 1) k) = none := by
  cases l with
  | nil => simpa using h
  | cons a rest =>
    obtain ⟨a1, a2⟩ := a
    show truthy (lookupA rest k) = none
    by_cases he : a1 = k
    · subst he
      simp only [List.map_cons, List.nodup_cons] at hnd
      rw [lookupA_eq_none_of_not_mem hnd.1]
      rfl
    · simp only [lookupA, if_neg he] at h
      exact h

lemma falsy_after_get {c : LRU} {k k₀ : String}
    (h : truthy (lookupA c.entries k) = none) :
    truthy (lookupA ((c.get k₀).2).entries k) = none := by
  rw [lru_get_entries]
  cases hl : lookupA c.entries k₀ with
  | none => simpa only [hl] using h
  | some v =>
    simp only [hl]
    by_cases he : k = k₀
    · subst he
      have h1 : lookupA (eraseA c.entries k) k = none :=
        lookupA_eq_none_of_not_mem (not_mem_keys_eraseA_self _ _)
      rw [lookupA_append_of_none h1]
      simp only [lookupA, if_pos rfl]
      rw [hl] at h
      exact h
    · have h2 : lookupA (eraseA c.entries k₀) k = lookupA c.entries k :=
        lookupA_eraseA_ne he
      cases hx : lookupA c.entries k with
      | some w =>
        have h3 : lookupA (eraseA c.entries k₀) k = some w := by rw [h2, hx]
        rw [lookupA_append_of_some h3]
        rw [hx] at h
        exact h
      | none =>
        rw [lookupA_append_of_none (by rw [h2, hx])]
        simp only [lookupA, if_neg (Ne.symm he)]
        rfl

lemma falsy_after_set {c : LRU} {k k₀ : String} (v₀ : String) (hne : k ≠ k₀)
    (hnd : (c.entries.map Prod.fst).Nodup)
    (h : truthy (lookupA c.entries k) = none) :
    truthy (lookupA ((c.set k₀ v₀).entries) k) = none := by
  have hbase : truthy (lookupA (eraseA c.entries k₀ ++ [(k₀, v₀)]) k) = none := by
    have h2 : lookupA (eraseA c.entries k₀) k = lookupA c.entries k :=
      lookupA_eraseA_ne hne
    cases hx : lookupA c.entries k with
    | some w =>
      have h3 : lookupA (eraseA c.entries k₀) k = some w := by rw [h2, hx]
      rw [lookupA_append_of_some h3]
      rw [hx] at h
      exact h
    | none =>
      rw [lookupA_append_of_none (by rw [h2, hx])]
      simp only [lookupA, if_neg (Ne.symm hne)]
      rfl
  have hndb : ((eraseA c.entries k₀ ++ [(k₀, v₀)]).map Prod.fst).Nodup :=
    nodup_keys_erase_append hnd
  simp only [LRU.set]
  split
  · exact falsy_tail hndb hbase
  · exact hbase

lemma scanHits_falsy_slot (disk : DiskCache) (k : String)
    (hD : truthy (disk.get k) = none) :
    ∀ (keys : List String) (lru : LRU),
      (lru.entries.map Prod.fst).Nodup →
      truthy (lookupA lru.entries k) = none →
      ∀ i : Nat, keys[i]? = some k →
        ((scanHits disk lru keys).1)[i]? = some (none : Option String) := by
  intro keys
  induction keys with
  | nil =>
    intro lru _ _ i hi
    simp at hi
  | cons k₀ ks ih =>
    intro lru hnd hfal i hi
    cases i with
    | zero =>
      simp only [List.getElem?_cons_zero, Option.some.injEq] at hi
      subst hi
      have hj : jsOr ((lru.get k₀).1) (disk.get k₀) = none := by
        unfold jsOr
        rw [lru_get_fst, hfal]
        exact hD
      simp only [scanHits, hj]
      simp
    | succ i' =>
      have hi' : ks[i']? = some k := by simpa using hi
      cases hj : jsOr ((lru.get k₀).1) (disk.get k₀) with
      | none =>
        have hnd' := @nodup_after_get lru k₀ hnd
        have hfal' := @falsy_after_get lru k k₀ hfal
        simp only [scanHits, hj]
        simpa using ih ((lru.get k₀).2) hnd' hfal' i' hi'
      | some v =>
        have hkne : k ≠ k₀ := by
          intro he
          subst he
          have hz : jsOr ((lru.get k).1) (disk.get k) = none := by
            unfold jsOr
            rw [lru_get_fst, hfal]
            exact hD
          rw [hz] at hj
          simp at hj
        have hnd1 := @nodup_after_get lru k₀ hnd
        have hnd2 := nodup_after_set k₀ v hnd1
        have hfal1 := @falsy_after_get lru k k₀ hfal
        have hfal2 := falsy_after_set v hkne hnd1 hfal1
        simp only [scanHits, hj]
        simpa using ih (((lru.get k₀).2).set k₀ v) hnd2 hfal2 i' hi'

lemma zip3_mem_of_getElem? :
    ∀ (ts ks : List String) (ss : List (Option String)) (i : Nat) (t k : String)
      (s_ : Option String),
      ts[i]? = some t → ks[i]? = some k → ss[i]? = some s_ →
      (t, k, s_) ∈ ts.zip (ks.zip ss) := by
  intro ts
  induction ts with
  | nil =>
    intro ks ss i t k s_ h1 _ _
    simp at h1
  | cons t0 ts' ih =>
    intro ks ss i t k s_ h1 h2 h3
    cases ks with
    | nil => simp at h2
    | cons k0 ks' =>
      cases ss with
      | nil => simp at h3
      | cons s0 ss' =>
        cases i with
        | zero =>
          simp only [List.getElem?_cons_zero, Option.some.injEq] at h1 h2 h3
          subst h1
          subst h2
          subst h3
          simp [List.zip_cons_cons]
        | succ i' =>
          simp only [List.getElem?_cons_succ] at h1 h2 h3
          simp only [List.zip_cons_cons, List.mem_cons]
          exact Or.inr (ih ks' ss' i' t k s_ h1 h2 h3)

lemma mem_missList_of_mem :
    ∀ (items : List ScanItem) (t k : String),
      (t, k, (none : Option String)) ∈ items → t ∈ missList items := by
  intro items
  induction items with
  | nil =>
    intro t k h
    simp at h
  | cons it rest ih =>
    intro t k h
    obtain ⟨t0, k0, slot⟩ := it
    simp only [List.mem_cons] at h
    rcases h with h | h
    · simp only [Prod.mk.injEq] at h
      obtain ⟨ht, _, hs⟩ := h
      subst ht
      rw [← hs]
      simp [missList]
    · cases slot with
      | none =>
        simp only [missList]
        exact List.mem_cons_of_mem _ (ih t k h)
      | some v =>
        simp only [missList]
        exact ih t k h

/-- C10 counterexample: the fingerprint of "hi" is mapped to the empty string
in the memory cache, offlineOnly is unset, and yet translateMany makes no
Provider call — the persistent tier holds a non-empty value, so the text is a
hit, contradicting the claim that a text whose fingerprint maps to "" in the
memory cache or the persistent cache is treated as a miss and re-sent. -/
theorem c10_empty_memory_entry_disk_hit :
    lookupA shadowedPlugin.lru.entries (shadowedPlugin.keyOf id "hi") = some "" ∧
    shadowedPlugin.offlineOnly = false ∧
    (shadowedPlugin.translateMany id (fun _ => .ok ["X"]) ["hi"]).providerCalls = [] := by
  decide

/-- C10 (amended): a text whose fingerprint is mapped to the empty string in
one cache tier while the other tier also holds no truthy value (absent or
empty) is treated as a cache miss — the empty-string entry is never returned
as a hit — and, when offlineOnly is unset, the text is re-sent to the
Provider on every such translateMany call.  The memory cache is assumed to
have unique keys, which JS Maps guarantee. -/
theorem c10_falsy_both_tiers_resent (hash : String → String)
    (provider : List String → ProviderOutcome) (p : Plugin) (texts : List String)
    (t : String) (hmem : t ∈ texts)
    (hnd : (p.lru.entries.map Prod.fst).Nodup)
    (hL : truthy (lookupA p.lru.entries (p.keyOf hash t)) = none)
    (hD : truthy (p.disk.get (p.keyOf hash t)) = none)
    (hoff : p.offlineOnly = false) :
    t ∈ ((p.translateMany hash provider texts).providerCalls).flatten := by
  obtain ⟨i, hi⟩ := List.mem_iff_getElem?.mp hmem
  have hk : (texts.map (p.keyOf hash))[i]? = some (p.keyOf hash t) := by
    rw [List.getElem?_map (p.keyOf hash) texts i, hi]
    rfl
  have hs := scanHits_falsy_slot p.disk (p.keyOf hash t) hD (texts.map (p.keyOf hash))
    p.lru hnd hL i hk
  have hitem := zip3_mem_of_getElem? texts (texts.map (p.keyOf hash))
    (scanHits p.disk p.lru (texts.map (p.keyOf hash))).1 i t (p.keyOf hash t) none hi hk hs
  have hmiss : t ∈ p.missTexts hash texts := by
    unfold Plugin.missTexts Plugin.items
    exact mem_missList_of_mem _ t (p.keyOf hash t) hitem
  have hne : p.missTexts hash texts ≠ [] := List.ne_nil_of_mem hmiss
  rw [translateMany_providerCalls]
  rw [if_neg (by simp [hne, hoff])]
  simpa using hmiss

/-- Concrete check of c10_falsy_both_tiers_resent: an empty-string memory
entry with no persistent entry is re-sent to the Provider. -/
theorem c10_falsy_both_tiers_resent_check :
    "hi" ∈ ((emptyEntryPlugin.translateMany id
      (fun _ => .ok ["X"]) ["hi"]).providerCalls).flatten :=
  c10_falsy_both_tiers_resent id (fun _ => .ok ["X"]) emptyEntryPlugin ["hi"] "hi"
    (by decide) (by decide) (by decide) (by decide) rfl

/-! ## Shared lemmas about the dispatcher loop -/

lemma runQueue_nil {σ : Type} (b iv : Nat)
    (callee : σ → List String → Except Nat (List String) × σ) (s : σ) :
    runQueue b iv callee s [] = ⟨[], [], s⟩ := by
  rw [runQueue]
  simp

lemma runQueue_single_batch {σ : Type} (b iv : Nat)
    (callee : σ → List String → Except Nat (List String) × σ) (s : σ) (q : List QTask)
    (hb : 0 < b) (hq : q ≠ []) (hlen : q.length ≤ b) :
    runQueue b iv callee s q =
      ⟨[.call (q.map QTask.text), .wait iv],
       batchOutcomes q (callee s (q.map QTask.text)).1,
       (callee s (q.map QTask.text)).2⟩ := by
  have hcond : ¬ (q = [] ∨ b = 0) := by
    rw [not_or]
    exact ⟨hq, Nat.pos_iff_ne_zero.mp hb⟩
  rw [runQueue, dif_neg hcond]
  simp only [List.take_of_length_le hlen, List.drop_eq_nil_of_le hlen, runQueue_nil,
    List.append_nil]

lemma runQueue_cons_batch {σ : Type} (b iv : Nat)
    (callee : σ → List String → Except Nat (List String) × σ) (s : σ)
    (q₁ q₂ : List QTask) (hb : 0 < b) (hlen : q₁.length = b) :
    runQueue b iv callee s (q₁ ++ q₂) =
      ⟨.call (q₁.map QTask.text) :: .wait iv ::
         (runQueue b iv callee (callee s (q₁.map QTask.text)).2 q₂).events,
       batchOutcomes q₁ (callee s (q₁.map QTask.text)).1 ++
         (runQueue b iv callee (callee s (q₁.map QTask.text)).2 q₂).outcomes,
       (runQueue b iv callee (callee s (q₁.map QTask.text)).2 q₂).final⟩ := by
  subst hlen
  have hq1 : q₁ ≠ [] := by
    intro h0
    rw [h0] at hb
    simp at hb
  have hcond : ¬ (q₁ ++ q₂ = [] ∨ q₁.length = 0) := by
    rw [not_or]
    constructor
    · intro h0
      exact hq1 (List.append_eq_nil.mp h0).1
    · exact Nat.pos_iff_ne_zero.mp hb
  rw [runQueue, dif_neg hcond]
  simp only [List.take_left, List.drop_left]

lemma okOutcomes_of_length_eq :
    ∀ (q : List QTask) (tr : List String), q.length = tr.length →
      okOutcomes q tr = tr.map fun v => some (.resolved v) := by
  intro q
  induction q with
  | nil =>
    intro tr h
    cases tr with
    | nil => rfl
    | cons v vs => simp at h
  | cons tk tks ih =>
    intro tr h
    cases tr with
    | nil => simp at h
    | cons v vs =>
      simp only [List.length_cons, Nat.add_right_cancel_iff] at h
      simp only [okOutcomes, List.map_cons]
      rw [ih vs h]

lemma okOutcomes_self_texts :
    ∀ (q : List QTask),
      okOutcomes q (q.map QTask.text) = q.map fun tk => some (.resolved tk.text) := by
  intro q
  rw [okOutcomes_of_length_eq q (q.map QTask.text) (by simp)]
  simp

/-- The orchestrator on empty caches with a rejecting provider catches the
failure and returns the original texts (line 233). -/
lemma scanHits_empty_caches (disk : DiskCache) (hd : disk.map = []) :
    ∀ (keys : List String) (lru : LRU), lru.entries = [] →
      scanHits disk lru keys = (keys.map fun _ => none, lru, []) := by
  intro keys
  induction keys with
  | nil =>
    intro lru hl
    rfl
  | cons k ks ih =>
    intro lru hl
    have hget : lru.get k = (none, lru) := by
      unfold LRU.get
      rw [hl]
      rfl
    have hj : jsOr ((lru.get k).1) (disk.get k) = none := by
      rw [hget]
      unfold jsOr DiskCache.get
      rw [hd]
      rfl
    have hget2 : (lru.get k).2 = lru := by rw [hget]
    simp only [scanHits, hj, hget2]
    rw [ih lru hl]
    simp

lemma missList_zip_nones :
    ∀ (ts ks : List String), ts.length = ks.length →
      missList (ts.zip (ks.zip (ks.map fun _ => none))) = ts ∧
      fillOriginals (ts.zip (ks.zip (ks.map fun _ => none))) = ts := by
  intro ts
  induction ts with
  | nil =>
    intro ks h
    exact ⟨rfl, rfl⟩
  | cons t ts' ih =>
    intro ks h
    cases ks with
    | nil => simp at h
    | cons k ks' =>
      simp only [List.length_cons, Nat.add_right_cancel_iff] at h
      simp only [List.map_cons, List.zip_cons_cons, missList, fillOriginals]
      exact ⟨congrArg (fun l => t :: l) (ih ks' h).1,
             congrArg (fun l => t :: l) (ih ks' h).2⟩

lemma translateMany_err_returns_originals (hash : String → String) (p : Plugin)
    (texts : List String) (hoff : p.offlineOnly = false)
    (hl : p.lru.entries = []) (hd : p.disk.map = []) :
    (p.translateMany hash (fun _ => ProviderOutcome.err) texts).out = texts := by
  simp only [Plugin.translateMany]
  rw [scanHits_empty_caches p.disk hd (texts.map (p.keyOf hash)) p.lru hl]
  simp only
  obtain ⟨hm, hf⟩ := missList_zip_nones texts (texts.map (p.keyOf hash)) (by simp)
  rw [hm, hf]
  split
  · rfl
  · split
    · rfl
    · rfl

/-! ## C8: batch settlement on failure and success -/

/-- C8 counterexample: a one-task batch whose Provider call fails is not
rejected — the dispatcher awaits plugin.translateMany, which catches the
provider failure and returns the original text, so the task resolves with
"hello" instead of rejecting, contradicting the claim that all requests in
the batch are rejected and none resolves. -/
theorem c8_provider_failure_resolves_originals :
    (runQueue 20 250 (orchCallee id fun _ => .err) samplePlugin
      [⟨"hello"⟩]).outcomes = [some (.resolved "hello")] := by
  rw [runQueue_single_batch 20 250 (orchCallee id fun _ => .err) samplePlugin
    [⟨"hello"⟩] (by decide) (by decide) (by decide)]
  decide

/-- C8 (amended): the batch settlement of the dispatcher loop.  (a) If the
awaited callee itself throws for a batch, every request of that batch is
rejected with that same error and none resolves.  (b) If the callee returns a
list of the batch's length, request i resolves with result i (positional
zip).  (c) A batch's settlement never affects later batches: the outcomes of
a run are the first batch's settlement followed by the remaining run's.
(d) In the real wiring the callee is the orchestrator, which catches a
Provider failure and returns originals — so when the Provider call fails
(empty caches, online), every request of the batch resolves with its own
original text; none is rejected and none is retried. -/
theorem c8_batch_failure_and_zip :
    (∀ (σ : Type) (b iv : Nat) (callee : σ → List String → Except Nat (List String) × σ)
       (s : σ) (q : List QTask) (e : Nat),
       0 < b → q ≠ [] → q.length ≤ b → (callee s (q.map QTask.text)).1 = .error e →
       (runQueue b iv callee s q).outcomes = q.map fun _ => some (.rejected e)) ∧
    (∀ (σ : Type) (b iv : Nat) (callee : σ → List String → Except Nat (List String) × σ)
       (s : σ) (q : List QTask) (tr : List String),
       0 < b → q ≠ [] → q.length ≤ b → (callee s (q.map QTask.text)).1 = .ok tr →
       tr.length = q.length →
       (runQueue b iv callee s q).outcomes = tr.map fun v => some (.resolved v)) ∧
    (∀ (σ : Type) (b iv : Nat) (callee : σ → List String → Except Nat (List String) × σ)
       (s : σ) (q₁ q₂ : List QTask),
       0 < b → q₁.length = b →
       (runQueue b iv callee s (q₁ ++ q₂)).outcomes =
         batchOutcomes q₁ (callee s (q₁.map QTask.text)).1 ++
         (runQueue b iv callee (callee s (q₁.map QTask.text)).2 q₂).outcomes) ∧
    (∀ (hash : String → String) (p : Plugin) (b iv : Nat) (q : List QTask),
       0 < b → q ≠ [] → q.length ≤ b → p.offlineOnly = false →
       p.lru.entries = [] → p.disk.map = [] →
       (runQueue b iv (orchCallee hash (fun _ => ProviderOutcome.err)) p q).outcomes =
         q.map fun tk => some (.resolved tk.text)) := by
  refine ⟨?_, ?_, ?_, ?_⟩
  · intro σ b iv callee s q e hb hq hlen hcall
    rw [runQueue_single_batch b iv callee s q hb hq hlen]
    simp only [hcall, batchOutcomes]
  · intro σ b iv callee s q tr hb hq hlen hcall htr
    rw [runQueue_single_batch b iv callee s q hb hq hlen]
    simp only [hcall, batchOutcomes]
    exact okOutcomes_of_length_eq q tr htr.symm
  · intro σ b iv callee s q₁ q₂ hb hlen
    rw [runQueue_cons_batch b iv callee s q₁ q₂ hb hlen]
  · intro hash p b iv q hb hq hlen hoff hl hd
    rw [runQueue_single_batch b iv _ p q hb hq hlen]
    have hcall : ((orchCallee hash (fun _ => ProviderOutcome.err)) p (q.map QTask.text)).1 =
        .ok (q.map QTask.text) := by
      unfold orchCallee
      simp only
      rw [translateMany_err_returns_originals hash p (q.map QTask.text) hoff hl hd]
    simp only [hcall, batchOutcomes]
    exact okOutcomes_self_texts q

/-- Concrete check of c8_batch_failure_and_zip: a throwing callee rejects the
whole batch uniformly, and a failing Provider behind the orchestrator
resolves each task with its original text. -/
theorem c8_batch_failure_and_zip_check :
    (runQueue 3 250 (fun (_ : Unit) _ => (.error 7, ())) ()
      [⟨"a"⟩, ⟨"b"⟩]).outcomes = [some (.rejected 7), some (.rejected 7)] ∧
    (runQueue 20 250 (orchCallee id fun _ => .err) samplePlugin
      [⟨"x"⟩, ⟨"y"⟩]).outcomes = [some (.resolved "x"), some (.resolved "y")] :=
  ⟨c8_batch_failure_and_zip.1 Unit 3 250 (fun _ _ => (.error 7, ())) ()
      [⟨"a"⟩, ⟨"b"⟩] 7 (by decide) (by decide) (by decide) rfl,
   c8_batch_failure_and_zip.2.2.2 id samplePlugin 20 250 [⟨"x"⟩, ⟨"y"⟩]
      (by decide) (by decide) (by decide) rfl rfl rfl⟩

/-! ## C9: unconditional inter-batch wait and queue drain -/

lemma chunksB_nil {α : Type} (b : Nat) : chunksB b ([] : List α) = [] := by
  rw [chunksB]

lemma chunksB_cons {α : Type} (b : Nat) (hb : b ≠ 0) (x : α) (xs : List α) :
    chunksB b (x :: xs) = (x :: xs).take b :: chunksB b ((x :: xs).drop b) := by
  rw [chunksB]
  rw [dif_neg hb]

lemma runQueue_events_aux {σ : Type} (b iv : Nat)
    (callee : σ → List String → Except Nat (List String) × σ) (hb : 0 < b) :
    ∀ (n : Nat) (q : List QTask), q.length ≤ n → ∀ s : σ,
      (runQueue b iv callee s q).events =
        ((chunksB b (q.map QTask.text)).map
          fun ts => [QEvent.call ts, QEvent.wait iv]).flatten := by
  intro n
  induction n with
  | zero =>
    intro q hq s
    have hq0 : q = [] := List.eq_nil_of_length_eq_zero (Nat.le_zero.mp hq)
    subst hq0
    rw [runQueue_nil]
    simp [chunksB_nil]
  | succ n ih =>
    intro q hq s
    cases q with
    | nil =>
      rw [runQueue_nil]
      simp [chunksB_nil]
    | cons tk tks =>
      have hbne : b ≠ 0 := Nat.pos_iff_ne_zero.mp hb
      have hcond : ¬ (tk :: tks = [] ∨ b = 0) := by
        rw [not_or]
        exact ⟨by simp, hbne⟩
      rw [runQueue, dif_neg hcond]
      simp only
      rw [ih ((tk :: tks).drop b) (by
        simp only [List.length_drop, List.length_cons]
        simp only [List.length_cons] at hq
        omega) ((callee s (((tk :: tks).take b).map QTask.text)).2)]
      rw [List.map_cons, chunksB_cons b hbne tk.text (tks.map QTask.text)]
      simp [List.map_take, List.map_drop]

lemma chunksB_flatten_aux {α : Type} (b : Nat) (hb : 0 < b) :
    ∀ (n : Nat) (l : List α), l.length ≤ n → (chunksB b l).flatten = l := by
  intro n
  induction n with
  | zero =>
    intro l hl
    have hl0 : l = [] := List.eq_nil_of_length_eq_zero (Nat.le_zero.mp hl)
    subst hl0
    simp [chunksB_nil]
  | succ n ih =>
    intro l hl
    cases l with
    | nil => simp [chunksB_nil]
    | cons x xs =>
      rw [chunksB_cons b (Nat.pos_iff_ne_zero.mp hb) x xs]
      rw [List.flatten_cons]
      rw [ih ((x :: xs).drop b) (by
        simp only [List.length_drop, List.length_cons]
        simp only [List.length_cons] at hl
        omega)]
      exact List.take_append_drop b (x :: xs)

/-- C9: after every batch's callee invocation — success or failure alike, and
including the final batch even though the queue is then empty — the running
loop performs one unconditional wait of max(250, floor(1000 / max(1, rps)))
milliseconds; the trace is exactly one call event followed by one wait event
per FIFO chunk of the queue, the chunks concatenate back to the whole queue
(the loop exits only once the queue is empty at the top of an iteration), and
for rps at least 1 the interval equals max(250, 1000 / rps) in integer
milliseconds. -/
theorem c9_unconditional_wait_and_drain :
    (∀ (σ : Type) (b iv : Nat) (callee : σ → List String → Except Nat (List String) × σ)
       (s : σ) (q : List QTask), 0 < b →
       (runQueue b iv callee s q).events =
         ((chunksB b (q.map QTask.text)).map
           fun ts => [QEvent.call ts, QEvent.wait iv]).flatten) ∧
    (∀ (b : Nat) (l : List String), 0 < b → (chunksB b l).flatten = l) ∧
    (∀ rps : Nat, 1 ≤ rps → interval rps = max 250 (1000 / rps)) := by
  refine ⟨?_, ?_, ?_⟩
  · intro σ b iv callee s q hb
    exact runQueue_events_aux b iv callee hb q.length q le_rfl s
  · intro b l hb
    exact chunksB_flatten_aux b hb l.length l le_rfl
  · intro rps h
    unfold interval
    rw [Nat.max_eq_right h]

/-- Concrete check of c9_unconditional_wait_and_drain: a three-task queue with
batch size 2 produces the chunked call/wait trace, the chunks drain the whole
queue, and the interval formula agrees at rps = 4. -/
theorem c9_unconditional_wait_and_drain_check :
    (runQueue 2 250 (fun (_ : Unit) _ => (.error 3, ())) ()
      [⟨"a"⟩, ⟨"b"⟩, ⟨"c"⟩]).events =
      ((chunksB 2 (([⟨"a"⟩, ⟨"b"⟩, ⟨"c"⟩] : List QTask).map QTask.text)).map
        fun ts => [QEvent.call ts, QEvent.wait 250]).flatten ∧
    (chunksB 2 ["a", "b", "c"]).flatten = ["a", "b", "c"] ∧
    interval 4 = max 250 (1000 / 4) :=
  ⟨c9_unconditional_wait_and_drain.1 Unit 2 250 (fun _ _ => (.error 3, ())) ()
      [⟨"a"⟩, ⟨"b"⟩, ⟨"c"⟩] (by decide),
   c9_unconditional_wait_and_drain.2.1 2 ["a", "b", "c"] (by decide),
   c9_unconditional_wait_and_drain.2.2 4 (by decide)⟩

end AutoTranslateUI
